import Mathlib

/-!
# Verification of the Shouji pre-alignment filter

Shallow embedding of `src/shouji/shouji.py` (functions `_best_window_vector`
and `shouji_single`) together with proofs of the specification's claims.

Sequences are `List Char` (Python strings), bit vectors are `List Nat`
holding only 0/1, the diagonal offset is an `Int` (Python iterates
`range(-E, E+1)`), and the fallible entry point returns `Except String`
(Python raises `ValueError`).  The Python default `window_width = 4` is
passed explicitly as `W` here.
-/

namespace Shouji

/-- Number of zeros of a bit vector: Python `vec.count(0)`. -/
def zeroCount (vec : List Nat) : Nat := vec.count 0

/-- Python `1 if vec[0] == 0 else 0`.  All call sites pass non-empty
vectors (width `W ≥ 1`), so the `headD` default is never consulted there. -/
def leadingZero (vec : List Nat) : Nat := if vec.headD 1 = 0 then 1 else 0

/-- The selection loop of `_best_window_vector`: running best vector plus
its zero count and leading-zero flag, both started at the sentinel `-1`. -/
def bestLoop : List (List Nat) → Option (List Nat) → Int → Int → Option (List Nat)
  | [], best, _, _ => best
  | vec :: rest, best, bzc, blz =>
    if (zeroCount vec : Int) > bzc ∨
        ((zeroCount vec : Int) = bzc ∧ (leadingZero vec : Int) > blz) then
      bestLoop rest (some vec) (zeroCount vec) (leadingZero vec)
    else
      bestLoop rest best bzc blz

/-- `_best_window_vector`: pick the vector with the most zeros, ties broken
by a leading zero, remaining ties by first occurrence. -/
def bestWindowVector (windowBits : List (List Nat)) : Option (List Nat) :=
  bestLoop windowBits none (-1) (-1)

/-- Python `list(range(-E, E + 1))`. -/
def diagOffsets (E : Nat) : List Int :=
  (List.range (2 * E + 1)).map (fun n : Nat => (n : Int) - (E : Int))

/-- One bit of a window vector: compare `seq_p[c+k]` with `seq_t[c+k+d]`
(indices `i = c+k`, `j = c+k+d` in the Python loop); an index outside
`[0, m)` counts as a mismatch (bit 1). -/
def windowBit (seq_p seq_t : List Char) (m c k : Nat) (d : Int) : Nat :=
  if c + k < m ∧ 0 ≤ ((c + k : Nat) : Int) + d ∧ ((c + k : Nat) : Int) + d < (m : Int) then
    if seq_p.getD (c + k) 'A' = seq_t.getD (((c + k : Nat) : Int) + d).toNat 'A' then 0 else 1
  else 1

/-- The window vector of width `W` anchored at column `c` on diagonal `d`. -/
def windowVec (seq_p seq_t : List Char) (m W c : Nat) (d : Int) : List Nat :=
  (List.range W).map (fun k => windowBit seq_p seq_t m c k d)

/-- All `2E+1` candidate window vectors of a column, in increasing offset order. -/
def windowVectors (seq_p seq_t : List Char) (m E W c : Nat) : List (List Nat) :=
  (diagOffsets E).map (windowVec seq_p seq_t m W c)

/-- The merge loop body: `for k in range(W): pos = c+k; if pos >= m: break;
if best[k] == 0: bits[pos] = 0`, with `fuel` counting remaining iterations. -/
def mergeGo (best : List Nat) (m c : Nat) : Nat → Nat → List Nat → List Nat
  | 0, _, bits => bits
  | fuel + 1, k, bits =>
    if m ≤ c + k then bits
    else
      mergeGo best m c fuel (k + 1)
        (if best.getD k 1 = 0 then bits.set (c + k) 0 else bits)

/-- Merge the selected best vector of column `c` into the decision vector. -/
def mergeColumn (best : List Nat) (m c W : Nat) (bits : List Nat) : List Nat :=
  mergeGo best m c W 0 bits

/-- One iteration of the column scan: build the window vectors, select the
best one, merge it.  `E ≥ 0` guarantees at least one candidate, so the
`none` branch is unreachable (`bestWindowVector_windowVectors_isSome`). -/
def processColumn (seq_p seq_t : List Char) (m E W c : Nat) (bits : List Nat) : List Nat :=
  match bestWindowVector (windowVectors seq_p seq_t m E W c) with
  | some best => mergeColumn best m c W bits
  | none => bits

/-- The column scan `for c in range(0, m)`, with `fuel` remaining columns. -/
def shoujiLoop (seq_p seq_t : List Char) (m E W : Nat) : Nat → Nat → List Nat → List Nat
  | 0, _, bits => bits
  | fuel + 1, c, bits =>
    shoujiLoop seq_p seq_t m E W fuel (c + 1) (processColumn seq_p seq_t m E W c bits)

/-- `shouji_single`: the Shouji filter on one pair of sequences.  The Python
default `window_width = 4` is passed explicitly as `W`. -/
def shouji_single (seq_p seq_t : List Char) (E W : Nat) :
    Except String (Bool × List Nat) :=
  if seq_p.length ≠ seq_t.length then
    Except.error
      "This simple version requires equal sequence lengths. Pad or trim for local/glocal alignment if needed."
  else
    let m := seq_p.length
    let bits := shoujiLoop seq_p seq_t m E W m 0 (List.replicate m 1)
    Except.ok (decide (bits.sum ≤ E), bits)

/-- The selection score of `_best_window_vector`, as a lexicographic pair:
zero count first, then the leading-zero flag. -/
def bscore (vec : List Nat) : Lex (Nat × Nat) := toLex (zeroCount vec, leadingZero vec)

/-- Index of the first occurrence of `v` in `l` (the position relevant to
the Window Selector's first-wins tie-break). -/
def firstIdx (v : List Nat) (l : List (List Nat)) : Nat :=
  l.findIdx (fun w => decide (w = v))

/-! ## The Window Selector computes a first lexicographic argmax -/

lemma bscore_lt_iff (a b : List Nat) :
    bscore a < bscore b ↔
      zeroCount a < zeroCount b ∨
        (zeroCount a = zeroCount b ∧ leadingZero a < leadingZero b) := by
  rw [bscore, bscore, Prod.Lex.lt_iff]

lemma bscore_le_iff (a b : List Nat) :
    bscore a ≤ bscore b ↔
      zeroCount a < zeroCount b ∨
        (zeroCount a = zeroCount b ∧ leadingZero a ≤ leadingZero b) := by
  rw [bscore, bscore, Prod.Lex.le_iff]

lemma bestLoop_eq_foldl (l : List (List Nat)) :
    ∀ b : List Nat, bestLoop l (some b) (zeroCount b) (leadingZero b) =
      l.foldl (List.argAux fun x y => bscore y < bscore x) (some b) := by
  induction l with
  | nil => intro b; rfl
  | cons v rest ih =>
    intro b
    have hiff : ((zeroCount v : Int) > (zeroCount b : Int) ∨
        ((zeroCount v : Int) = (zeroCount b : Int) ∧
          (leadingZero v : Int) > (leadingZero b : Int))) ↔ bscore b < bscore v := by
      rw [bscore_lt_iff]; omega
    rw [bestLoop, List.foldl_cons]
    by_cases h : bscore b < bscore v
    · rw [if_pos (hiff.mpr h),
        show List.argAux (fun x y => bscore y < bscore x) (some b) v = some v from
          if_pos h, ih v]
    · rw [if_neg (fun hc => h (hiff.mp hc)),
        show List.argAux (fun x y => bscore y < bscore x) (some b) v = some b from
          if_neg h, ih b]

lemma bestWindowVector_eq_argmax (l : List (List Nat)) :
    bestWindowVector l = l.argmax bscore := by
  cases l with
  | nil => rfl
  | cons v rest =>
    rw [bestWindowVector, bestLoop, if_pos (Or.inl (by omega)), List.argmax,
      List.foldl_cons,
      show List.argAux (fun x y => bscore y < bscore x) none v = some v from rfl]
    exact bestLoop_eq_foldl rest v

lemma bestWindowVector_mem {l : List (List Nat)} {v : List Nat}
    (h : bestWindowVector l = some v) : v ∈ l := by
  rw [bestWindowVector_eq_argmax] at h
  exact List.argmax_mem (Option.mem_def.mpr h)

lemma bestWindowVector_le {l : List (List Nat)} {v w : List Nat} (hw : w ∈ l)
    (h : bestWindowVector l = some v) : bscore w ≤ bscore v := by
  rw [bestWindowVector_eq_argmax] at h
  exact List.le_of_mem_argmax hw (Option.mem_def.mpr h)

lemma bestWindowVector_isSome {l : List (List Nat)} (h : l ≠ []) :
    ∃ v, bestWindowVector l = some v := by
  rw [bestWindowVector_eq_argmax]
  cases hv : l.argmax bscore with
  | none => exact absurd (List.argmax_eq_none.mp hv) h
  | some v => exact ⟨v, rfl⟩

/-! ## Window construction -/

lemma mem_diagOffsets {E : Nat} {d : Int} :
    d ∈ diagOffsets E ↔ -(E : Int) ≤ d ∧ d ≤ (E : Int) := by
  rw [diagOffsets, List.mem_map]
  constructor
  · rintro ⟨n, hn, rfl⟩
    rw [List.mem_range] at hn
    omega
  · intro h
    refine ⟨(d + E).toNat, ?_, ?_⟩
    · rw [List.mem_range]; omega
    · omega

lemma length_diagOffsets (E : Nat) : (diagOffsets E).length = 2 * E + 1 := by
  rw [diagOffsets, List.length_map, List.length_range]

lemma diagOffsets_ne_nil (E : Nat) : diagOffsets E ≠ [] := by
  intro h
  have := length_diagOffsets E
  rw [h] at this
  simp at this

lemma windowVectors_ne_nil (p t : List Char) (m E W c : Nat) :
    windowVectors p t m E W c ≠ [] := by
  rw [windowVectors]
  simp [diagOffsets_ne_nil E]

lemma length_windowVec (p t : List Char) (m W c : Nat) (d : Int) :
    (windowVec p t m W c d).length = W := by
  simp [windowVec]

lemma getD_windowVec (p t : List Char) (m c : Nat) (d : Int) {W k : Nat} (hk : k < W) :
    (windowVec p t m W c d).getD k 1 = windowBit p t m c k d := by
  rw [windowVec, List.getD_eq_getElem?_getD, List.getElem?_map, List.getElem?_range hk]
  rfl

lemma windowBit_eq_zero {p t : List Char} {m c k : Nat} {d : Int} :
    windowBit p t m c k d = 0 ↔
      c + k < m ∧ 0 ≤ ((c + k : Nat) : Int) + d ∧ ((c + k : Nat) : Int) + d < (m : Int) ∧
        p.getD (c + k) 'A' = t.getD (((c + k : Nat) : Int) + d).toNat 'A' := by
  rw [windowBit]
  split_ifs with h1 h2
  · simp only [eq_self_iff_true, true_iff]
    exact ⟨h1.1, h1.2.1, h1.2.2, h2⟩
  · simp only [one_ne_zero, false_iff]
    intro hcon
    exact h2 hcon.2.2.2
  · simp only [one_ne_zero, false_iff]
    intro hcon
    exact h1 ⟨hcon.1, hcon.2.1, hcon.2.2.1⟩

lemma windowBit_self (s : List Char) (m c k : Nat) :
    windowBit s s m c k 0 = if c + k < m then 0 else 1 := by
  have hidx : (((c + k : Nat) : Int) + 0).toNat = c + k := by omega
  rw [windowBit, hidx]
  by_cases h : c + k < m
  · rw [if_pos ⟨h, by omega, by omega⟩, if_pos rfl, if_pos h]
  · rw [if_neg (fun hcon => h hcon.1), if_neg h]

lemma zeroCount_windowVec_eq_countP (p t : List Char) (m W c : Nat) (d : Int) :
    zeroCount (windowVec p t m W c d) =
      (List.range W).countP (fun k => windowBit p t m c k d == 0) := by
  rw [zeroCount, windowVec, List.count_eq_countP, List.countP_map]
  rfl

lemma zeroCount_le_inBound (p t : List Char) (m W c : Nat) (d : Int) :
    zeroCount (windowVec p t m W c d) ≤ (List.range W).countP (fun k => c + k < m) := by
  rw [zeroCount_windowVec_eq_countP]
  apply List.countP_mono_left
  intro k _ hk
  simp only [beq_iff_eq] at hk
  simp only [decide_eq_true_eq]
  exact (windowBit_eq_zero.mp hk).1

lemma zeroCount_windowVec_self (s : List Char) (m W c : Nat) :
    zeroCount (windowVec s s m W c 0) = (List.range W).countP (fun k => c + k < m) := by
  rw [zeroCount_windowVec_eq_countP]
  apply List.countP_congr
  intro k _
  rw [windowBit_self]
  by_cases h : c + k < m
  · simp [h]
  · simp [h]

lemma getD_zero_eq_headD (l : List Nat) (d : Nat) : l.getD 0 d = l.headD d := by
  cases l <;> rfl

lemma leadingZero_windowVec_self (s : List Char) (m W c : Nat) (hW : 1 ≤ W)
    (hc : c < m) : leadingZero (windowVec s s m W c 0) = 1 := by
  obtain ⟨w, rfl⟩ : ∃ w, W = w + 1 := ⟨W - 1, by omega⟩
  rw [leadingZero, windowVec, List.range_succ_eq_map, List.map_cons, List.headD_cons,
    windowBit_self s m c 0, if_pos (show c + 0 < m by omega)]
  rfl

/-- The vector selected for a column of a self-comparison has a zero first
bit: the `d = 0` candidate attains the maximal zero count together with a
leading zero, so the lexicographic maximum has a leading zero as well. -/
lemma bestWindow_self_head (s : List Char) (m E W c : Nat)
    (hW : 1 ≤ W) (hc : c < m) :
    ∃ best, bestWindowVector (windowVectors s s m E W c) = some best ∧
      best.getD 0 1 = 0 := by
  obtain ⟨best, hbest⟩ := bestWindowVector_isSome (windowVectors_ne_nil s s m E W c)
  refine ⟨best, hbest, ?_⟩
  have h0mem : windowVec s s m W c 0 ∈ windowVectors s s m E W c := by
    rw [windowVectors]
    exact List.mem_map_of_mem _ (mem_diagOffsets.mpr ⟨by omega, by omega⟩)
  have hle := bestWindowVector_le h0mem hbest
  have hub : zeroCount best ≤ zeroCount (windowVec s s m W c 0) := by
    rw [zeroCount_windowVec_self]
    have hmem := bestWindowVector_mem hbest
    rw [windowVectors] at hmem
    obtain ⟨d, hd, hveq⟩ := List.mem_map.mp hmem
    rw [← hveq]
    exact zeroCount_le_inBound s s m W c d
  rw [bscore_le_iff] at hle
  have hlead : 1 ≤ leadingZero best := by
    rcases hle with h | ⟨h, h2⟩
    · omega
    · rw [leadingZero_windowVec_self s m W c hW hc] at h2
      exact h2
  have hhead : best.headD 1 = 0 := by
    by_contra hne
    rw [leadingZero, if_neg hne] at hlead
    omega
  rw [getD_zero_eq_headD]
  exact hhead

/-! ## The merge step -/

lemma getD_set_zero_le (bits : List Nat) (p q : Nat) :
    (bits.set p 0).getD q 1 ≤ bits.getD q 1 := by
  rcases Nat.lt_or_ge p bits.length with hp | hp
  · by_cases hpq : p = q
    · subst hpq
      rw [List.getD_eq_getElem?_getD, List.getElem?_set_self hp]
      simp
    · rw [List.getD_eq_getElem?_getD, List.getElem?_set_ne hpq,
        ← List.getD_eq_getElem?_getD]
  · rw [List.set_eq_of_length_le hp]

lemma length_mergeGo (best : List Nat) (m c : Nat) :
    ∀ fuel k bits, (mergeGo best m c fuel k bits).length = bits.length := by
  intro fuel
  induction fuel with
  | zero => intro k bits; rfl
  | succ f ih =>
    intro k bits
    rw [mergeGo]
    split_ifs with h hb
    · rfl
    · rw [ih]; simp
    · exact ih (k + 1) bits

lemma mergeGo_getD_le (best : List Nat) (m c : Nat) :
    ∀ fuel k bits pos, (mergeGo best m c fuel k bits).getD pos 1 ≤ bits.getD pos 1 := by
  intro fuel
  induction fuel with
  | zero => intro k bits pos; exact le_refl _
  | succ f ih =>
    intro k bits pos
    rw [mergeGo]
    split_ifs with h hb
    · exact le_refl _
    · exact le_trans (ih (k + 1) _ pos) (getD_set_zero_le bits (c + k) pos)
    · exact ih (k + 1) bits pos

lemma mergeColumn_getD_c (best : List Nat) {m c : Nat} (W : Nat) (bits : List Nat)
    (hW : 1 ≤ W) (hc : c < m) (hlen : bits.length = m) (hb : best.getD 0 1 = 0) :
    (mergeColumn best m c W bits).getD c 1 = 0 := by
  obtain ⟨w, rfl⟩ : ∃ w, W = w + 1 := ⟨W - 1, by omega⟩
  rw [mergeColumn, mergeGo, if_neg (show ¬ m ≤ c + 0 by omega), if_pos hb]
  have h0 : (bits.set (c + 0) 0).getD c 1 = 0 := by
    rw [List.getD_eq_getElem?_getD, show c + 0 = c from rfl,
      List.getElem?_set_self (by omega)]
    rfl
  have hle := mergeGo_getD_le best m c w (0 + 1) (bits.set (c + 0) 0) c
  omega

lemma mergeGo_zero_source (best : List Nat) (m c : Nat) :
    ∀ fuel k0 bits pos, (mergeGo best m c fuel k0 bits).getD pos 1 = 0 →
      bits.getD pos 1 = 0 ∨
        ∃ k, k0 ≤ k ∧ k < k0 + fuel ∧ pos = c + k ∧ c + k < m ∧ best.getD k 1 = 0 := by
  intro fuel
  induction fuel with
  | zero => intro k0 bits pos h; exact Or.inl h
  | succ f ih =>
    intro k0 bits pos h
    rw [mergeGo] at h
    split_ifs at h with hmk hb
    · exact Or.inl h
    · rcases ih (k0 + 1) _ pos h with h' | ⟨k, hk1, hk2, hk3, hk4, hk5⟩
      · by_cases hpq : c + k0 = pos
        · exact Or.inr ⟨k0, le_refl _, by omega, hpq.symm, by omega, hb⟩
        · left
          rw [List.getD_eq_getElem?_getD, List.getElem?_set_ne hpq,
            ← List.getD_eq_getElem?_getD] at h'
          exact h'
      · exact Or.inr ⟨k, by omega, by omega, hk3, hk4, hk5⟩
    · rcases ih (k0 + 1) bits pos h with h' | ⟨k, hk1, hk2, hk3, hk4, hk5⟩
      · exact Or.inl h'
      · exact Or.inr ⟨k, by omega, by omega, hk3, hk4, hk5⟩

/-! ## The column scan -/

lemma length_processColumn (p t : List Char) (m E W c : Nat) (bits : List Nat) :
    (processColumn p t m E W c bits).length = bits.length := by
  rw [processColumn]
  split
  · exact length_mergeGo _ m c W 0 bits
  · rfl

lemma processColumn_getD_le (p t : List Char) (m E W c : Nat) (bits : List Nat)
    (pos : Nat) :
    (processColumn p t m E W c bits).getD pos 1 ≤ bits.getD pos 1 := by
  rw [processColumn]
  split
  · exact mergeGo_getD_le _ m c W 0 bits pos
  · exact le_refl _

lemma processColumn_zero_source (p t : List Char) (m E W c : Nat) (bits : List Nat)
    (pos : Nat) (h : (processColumn p t m E W c bits).getD pos 1 = 0) :
    bits.getD pos 1 = 0 ∨
      ∃ k d, k < W ∧ pos = c + k ∧ c + k < m ∧ d ∈ diagOffsets E ∧
        windowBit p t m c k d = 0 := by
  rw [processColumn] at h
  split at h
  case h_1 best hbest =>
    rcases mergeGo_zero_source best m c W 0 bits pos h with h' | ⟨k, _, hk2, hk3, hk4, hk5⟩
    · exact Or.inl h'
    · right
      have hmem := bestWindowVector_mem hbest
      rw [windowVectors] at hmem
      obtain ⟨d, hd, hveq⟩ := List.mem_map.mp hmem
      refine ⟨k, d, by omega, hk3, hk4, hd, ?_⟩
      rw [← getD_windowVec p t m c d (show k < W by omega), hveq]
      exact hk5
  case h_2 => exact Or.inl h

lemma length_shoujiLoop (p t : List Char) (m E W : Nat) :
    ∀ fuel c bits, (shoujiLoop p t m E W fuel c bits).length = bits.length := by
  intro fuel
  induction fuel with
  | zero => intro c bits; rfl
  | succ f ih =>
    intro c bits
    rw [shoujiLoop, ih, length_processColumn]

lemma shoujiLoop_getD_le (p t : List Char) (m E W : Nat) :
    ∀ fuel c bits pos, (shoujiLoop p t m E W fuel c bits).getD pos 1 ≤ bits.getD pos 1 := by
  intro fuel
  induction fuel with
  | zero => intro c bits pos; exact le_refl _
  | succ f ih =>
    intro c bits pos
    rw [shoujiLoop]
    exact le_trans (ih (c + 1) _ pos) (processColumn_getD_le p t m E W c bits pos)

lemma shoujiLoop_zero_source (p t : List Char) (m E W : Nat) :
    ∀ fuel c bits pos, (shoujiLoop p t m E W fuel c bits).getD pos 1 = 0 →
      bits.getD pos 1 = 0 ∨
        ∃ c' k d, c ≤ c' ∧ c' < c + fuel ∧ k < W ∧ pos = c' + k ∧ c' + k < m ∧
          d ∈ diagOffsets E ∧ windowBit p t m c' k d = 0 := by
  intro fuel
  induction fuel with
  | zero => intro c bits pos h; exact Or.inl h
  | succ f ih =>
    intro c bits pos h
    rw [shoujiLoop] at h
    rcases ih (c + 1) _ pos h with h' | ⟨c', k, d, hc1, hc2, hk, hpos, hcm, hd, hwb⟩
    · rcases processColumn_zero_source p t m E W c bits pos h' with h'' | ⟨k, d, hk, hpos, hcm, hd, hwb⟩
      · exact Or.inl h''
      · exact Or.inr ⟨c, k, d, le_refl _, by omega, hk, hpos, hcm, hd, hwb⟩
    · exact Or.inr ⟨c', k, d, by omega, by omega, hk, hpos, hcm, hd, hwb⟩

/-- Self-comparison: every already-processed position of the decision
vector is zero. -/
lemma shoujiLoop_self (s : List Char) (m E W : Nat) (hW : 1 ≤ W) :
    ∀ fuel c bits, bits.length = m → c + fuel = m →
      (∀ q, q < c → bits.getD q 1 = 0) →
      ∀ q, q < m → (shoujiLoop s s m E W fuel c bits).getD q 1 = 0 := by
  intro fuel
  induction fuel with
  | zero =>
    intro c bits hlen hcf hzero q hq
    exact hzero q (by omega)
  | succ f ih =>
    intro c bits hlen hcf hzero q hq
    rw [shoujiLoop]
    refine ih (c + 1) _ ?_ (by omega) ?_ q hq
    · rw [length_processColumn]; exact hlen
    · intro q' hq'
      rcases Nat.lt_or_ge q' c with h | h
      · have hle := processColumn_getD_le s s m E W c bits q'
        have hz := hzero q' h
        omega
      · have hq'c : q' = c := by omega
        subst hq'c
        obtain ⟨best, hbest, hb0⟩ :=
          bestWindow_self_head s m E W q' hW (by omega)
        rw [processColumn, hbest]
        exact mergeColumn_getD_c best W bits hW (by omega) hlen hb0

/-- Filtering a sequence against itself accepts with an all-zero decision
vector, for every threshold `E` and every window width `W ≥ 1`. -/
lemma shouji_self (s : List Char) (E W : Nat) (hW : 1 ≤ W) :
    shouji_single s s E W = Except.ok (true, List.replicate s.length 0) := by
  have hlen : (shoujiLoop s s s.length E W s.length 0
      (List.replicate s.length 1)).length = s.length := by
    rw [length_shoujiLoop, List.length_replicate]
  have heq : shoujiLoop s s s.length E W s.length 0 (List.replicate s.length 1)
      = List.replicate s.length 0 := by
    apply List.ext_getElem
    · rw [hlen, List.length_replicate]
    · intro i h1 h2
      have hall := shoujiLoop_self s s.length E W hW s.length 0
        (List.replicate s.length 1) (by rw [List.length_replicate]) (by omega)
        (fun q hq => absurd hq (by omega)) i (by omega)
      rw [List.getD_eq_getElem?_getD, List.getElem?_eq_getElem h1] at hall
      rw [List.getElem_replicate]
      simpa using hall
  rw [shouji_single, if_neg (fun hcon => hcon rfl)]
  simp only [heq]
  simp

/-- Accepting at threshold `E = 0` forces the two sequences to be equal:
the decision vector is then all zeros, and at `E = 0` every zero is backed
by a diagonal (`d = 0`) character match. -/
lemma shouji_accept_zero (p t : List Char) (W : Nat) (b : List Nat)
    (h : shouji_single p t 0 W = Except.ok (true, b)) : p = t := by
  rw [shouji_single] at h
  split_ifs at h with hlen
  · have hlen' : p.length = t.length := by omega
    simp only [Except.ok.injEq, Prod.mk.injEq] at h
    obtain ⟨hdec, hb⟩ := h
    rw [decide_eq_true_eq] at hdec
    have hloopLen : (shoujiLoop p t p.length 0 W p.length 0
        (List.replicate p.length 1)).length = p.length := by
      rw [length_shoujiLoop, List.length_replicate]
    have hzero : ∀ pos, pos < p.length →
        (shoujiLoop p t p.length 0 W p.length 0
          (List.replicate p.length 1)).getD pos 1 = 0 := by
      intro pos hpos
      have hsum0 : (shoujiLoop p t p.length 0 W p.length 0
          (List.replicate p.length 1)).sum = 0 := by omega
      have hmem : (shoujiLoop p t p.length 0 W p.length 0
            (List.replicate p.length 1)).getD pos 1
          ∈ shoujiLoop p t p.length 0 W p.length 0 (List.replicate p.length 1) := by
        rw [List.getD_eq_getElem?_getD, List.getElem?_eq_getElem (by omega)]
        exact List.getElem_mem _
      exact List.sum_eq_zero_iff.mp hsum0 _ hmem
    have hchar : ∀ pos, pos < p.length → p.getD pos 'A' = t.getD pos 'A' := by
      intro pos hpos
      rcases shoujiLoop_zero_source p t p.length 0 W p.length 0 _ pos
          (hzero pos hpos) with h' | ⟨c', k, d, _, _, _, hposck, _, hd, hwb⟩
      · rw [List.getD_eq_getElem?_getD, List.getElem?_replicate] at h'
        split_ifs at h'
        exact absurd h' (by simp)
      · have hd0 : d = 0 := by
          have := mem_diagOffsets.mp hd
          omega
        subst hd0
        obtain ⟨_, _, _, hch⟩ := windowBit_eq_zero.mp hwb
        have hidx : (((c' + k : Nat) : Int) + 0).toNat = c' + k := by omega
        rw [hidx] at hch
        rw [hposck]
        exact hch
    apply List.ext_getElem hlen'
    intro i h1 h2
    have := hchar i h1
    rw [List.getD_eq_getElem?_getD, List.getElem?_eq_getElem h1,
      List.getD_eq_getElem?_getD, List.getElem?_eq_getElem h2] at this
    simpa using this

/-! ## Claims -/

/-- **C1.**  For every sequence `s` and every threshold `E ≥ 0` (encoded as
`E : Nat`), `shouji_single s s E` with the default window width `W = 4`
accepts and returns a decision vector of length `len s` whose entries are
all 0. -/
theorem c1_exact_match (s : List Char) (E : Nat) :
    shouji_single s s E 4 = Except.ok (true, List.replicate s.length 0) :=
  shouji_self s E 4 (by omega)

/-- **C2, counterexample.**  Acceptance is not monotone in `E`, and the
1-bit count of the decision vector can increase as `E` grows: this pair is
accepted at `E = 2` (two 1-bits) but rejected at `E = 3` (four 1-bits). -/
theorem c2_counterexample :
    shouji_single "CCCCAAAAAACC".toList "ACAAACCAAAAA".toList 2 4 =
        Except.ok (true, [0, 0, 0, 0, 0, 0, 0, 0, 0, 0, 1, 1]) ∧
    shouji_single "CCCCAAAAAACC".toList "ACAAACCAAAAA".toList 3 4 =
        Except.ok (false, [1, 1, 0, 0, 0, 0, 0, 0, 0, 0, 1, 1]) ∧
    ([0, 0, 0, 0, 0, 0, 0, 0, 0, 0, 1, 1] : List Nat).sum = 2 ∧
    ([1, 1, 0, 0, 0, 0, 0, 0, 0, 0, 1, 1] : List Nat).sum = 4 :=
  ⟨rfl, rfl, rfl, rfl⟩

/-- **C2, amended.**  Monotonicity in `E` does hold from `E1 = 0`: if the
filter accepts a pair at threshold 0 (with any window width `W ≥ 1`), the
two sequences must be equal, so the filter accepts at every threshold with
an all-zero decision vector. -/
theorem c2_amended (p t : List Char) (W : Nat) (b : List Nat) (E2 : Nat)
    (hW : 1 ≤ W) (hacc : shouji_single p t 0 W = Except.ok (true, b)) :
    shouji_single p t E2 W = Except.ok (true, List.replicate p.length 0) := by
  rw [shouji_accept_zero p t W b hacc]
  exact shouji_self t E2 W hW

theorem c2_amended_witness :
    shouji_single "AC".toList "AC".toList 5 4 =
      Except.ok (true, List.replicate ("AC".toList).length 0) :=
  c2_amended "AC".toList "AC".toList 4 [0, 0] 5 (by omega) rfl

/-- **C3.**  The Window Selector, on a non-empty list of candidates of
equal width `W ≥ 1` (listed in increasing diagonal-offset order), returns
the first candidate that lexicographically maximizes (zero count,
leading-zero flag): strictly more zeros wins, a zero-count tie is broken in
favor of a first bit 0, and any remaining tie goes to the earliest
candidate. -/
theorem c3_window_selector (l : List (List Nat)) (W : Nat) (hne : l ≠ [])
    (_hW : 1 ≤ W) (_hwidth : ∀ v ∈ l, v.length = W) :
    ∃ v, bestWindowVector l = some v ∧ v ∈ l ∧
      (∀ w ∈ l, zeroCount w < zeroCount v ∨
        (zeroCount w = zeroCount v ∧ leadingZero w ≤ leadingZero v)) ∧
      (∀ w ∈ l, (zeroCount v < zeroCount w ∨
        (zeroCount v = zeroCount w ∧ leadingZero v ≤ leadingZero w)) →
        firstIdx v l ≤ firstIdx w l) := by
  obtain ⟨v, hv⟩ := bestWindowVector_isSome hne
  have hv' := hv
  rw [bestWindowVector_eq_argmax] at hv'
  obtain ⟨hmem, hmax, hfirst⟩ := List.argmax_eq_some_iff.mp hv'
  refine ⟨v, hv, hmem, ?_, ?_⟩
  · intro w hw
    exact (bscore_le_iff w v).mp (hmax w hw)
  · intro w hw hge
    exact hfirst w hw ((bscore_le_iff v w).mpr hge)

theorem c3_window_selector_witness :
    ∃ v, bestWindowVector [[1, 0], [0, 1], [0, 0]] = some v ∧
      v ∈ [[1, 0], [0, 1], [0, 0]] ∧
      (∀ w ∈ [[1, 0], [0, 1], [0, 0]], zeroCount w < zeroCount v ∨
        (zeroCount w = zeroCount v ∧ leadingZero w ≤ leadingZero v)) ∧
      (∀ w ∈ [[1, 0], [0, 1], [0, 0]], (zeroCount v < zeroCount w ∨
        (zeroCount v = zeroCount w ∧ leadingZero v ≤ leadingZero w)) →
        firstIdx v [[1, 0], [0, 1], [0, 0]] ≤ firstIdx w [[1, 0], [0, 1], [0, 0]]) :=
  c3_window_selector [[1, 0], [0, 1], [0, 0]] 2 (by decide) (by decide) (by decide)

/-- **C4.**  The merge is monotone: a column step (`processColumn`) only
lowers decision-vector entries (with 0 < 1), a 0 entry survives any single
column step, the remaining scan (`shoujiLoop`, which starts from the all-one
vector `List.replicate m 1` in `shouji_single`) also only lowers entries,
and a 0 entry is never reset to 1 by any later column. -/
theorem c4_monotone_merge (p t : List Char) (m E W : Nat) (bits : List Nat)
    (pos : Nat) :
    (∀ c, (processColumn p t m E W c bits).getD pos 1 ≤ bits.getD pos 1) ∧
    (∀ c, bits.getD pos 1 = 0 → (processColumn p t m E W c bits).getD pos 1 = 0) ∧
    (∀ fuel c, (shoujiLoop p t m E W fuel c bits).getD pos 1 ≤ bits.getD pos 1) ∧
    (∀ fuel c, bits.getD pos 1 = 0 →
      (shoujiLoop p t m E W fuel c bits).getD pos 1 = 0) := by
  refine ⟨fun c => processColumn_getD_le p t m E W c bits pos,
    fun c h0 => ?_, fun fuel c => shoujiLoop_getD_le p t m E W fuel c bits pos,
    fun fuel c h0 => ?_⟩
  · have := processColumn_getD_le p t m E W c bits pos
    omega
  · have := shoujiLoop_getD_le p t m E W fuel c bits pos
    omega

theorem c4_monotone_merge_witness :
    (processColumn "AC".toList "CA".toList 2 1 4 0 [0, 1]).getD 0 1 = 0 :=
  (c4_monotone_merge "AC".toList "CA".toList 2 1 4 [0, 1] 0).2.1 0 rfl

/-- **C5, counterexample.**  Widening `E` can turn a 0 of the decision
vector into a 1: at position 3, `E = 0` yields 0 but `E = 1` yields 1. -/
theorem c5_counterexample :
    shouji_single "ACGTTAC".toList "CGATACG".toList 0 4 =
        Except.ok (false, [1, 1, 1, 0, 1, 1, 1]) ∧
    shouji_single "ACGTTAC".toList "CGATACG".toList 1 4 =
        Except.ok (false, [1, 0, 0, 1, 0, 0, 0]) ∧
    ([1, 1, 1, 0, 1, 1, 1] : List Nat).getD 3 1 = 0 ∧
    ([1, 0, 0, 1, 0, 0, 0] : List Nat).getD 3 1 = 1 :=
  ⟨rfl, rfl, rfl, rfl⟩

/-- **C5, amended.**  What widening the band can never do is hurt a
column's selected window: for `E1 ≤ E2` the zero count of the vector chosen
by the Window Selector is non-decreasing, because widening only adds
candidate windows.  (At the decision-vector level, a previously-0 position
can still become 1, as the counterexample shows.) -/
theorem c5_amended (p t : List Char) (m W c E1 E2 : Nat) (hE : E1 ≤ E2) :
    ∃ b1 b2, bestWindowVector (windowVectors p t m E1 W c) = some b1 ∧
      bestWindowVector (windowVectors p t m E2 W c) = some b2 ∧
      zeroCount b1 ≤ zeroCount b2 := by
  obtain ⟨b1, h1⟩ := bestWindowVector_isSome (windowVectors_ne_nil p t m E1 W c)
  obtain ⟨b2, h2⟩ := bestWindowVector_isSome (windowVectors_ne_nil p t m E2 W c)
  refine ⟨b1, b2, h1, h2, ?_⟩
  have hmem1 := bestWindowVector_mem h1
  rw [windowVectors] at hmem1
  obtain ⟨d, hd, hveq⟩ := List.mem_map.mp hmem1
  have hmem2 : b1 ∈ windowVectors p t m E2 W c := by
    rw [windowVectors, ← hveq]
    apply List.mem_map_of_mem
    rw [mem_diagOffsets]
    have := mem_diagOffsets.mp hd
    constructor <;> omega
  have hle := bestWindowVector_le hmem2 h2
  rw [bscore_le_iff] at hle
  rcases hle with h | ⟨h, _⟩
  · omega
  · omega

theorem c5_amended_witness :
    ∃ b1 b2, bestWindowVector (windowVectors "AC".toList "CA".toList 2 0 4 0) = some b1 ∧
      bestWindowVector (windowVectors "AC".toList "CA".toList 2 1 4 0) = some b2 ∧
      zeroCount b1 ≤ zeroCount b2 :=
  c5_amended "AC".toList "CA".toList 2 4 0 0 1 (by omega)

/-- **C6.**  Per column `c` exactly `2E+1` candidate window vectors are
built, one per diagonal offset `d ∈ [-E, E]`; bit `k` compares
`pattern[c+k]` with `reference[c+k+d]`, equals 1 whenever either index
falls outside `[0, m)`, and otherwise equals 0 iff the two symbols are
equal. -/
theorem c6_window_bits (p t : List Char) (m E W c : Nat) :
    (windowVectors p t m E W c).length = 2 * E + 1 ∧
    (∀ d : Int, d ∈ diagOffsets E ↔ -(E : Int) ≤ d ∧ d ≤ (E : Int)) ∧
    (∀ d : Int, d ∈ diagOffsets E →
      windowVec p t m W c d ∈ windowVectors p t m E W c) ∧
    (∀ (d : Int) (k : Nat), k < W →
      ((m ≤ c + k ∨ ((c + k : Nat) : Int) + d < 0 ∨
          (m : Int) ≤ ((c + k : Nat) : Int) + d) →
        (windowVec p t m W c d).getD k 1 = 1) ∧
      ((c + k < m ∧ 0 ≤ ((c + k : Nat) : Int) + d ∧
          ((c + k : Nat) : Int) + d < (m : Int)) →
        ((windowVec p t m W c d).getD k 1 = 0 ↔
          p.getD (c + k) 'A' = t.getD (((c + k : Nat) : Int) + d).toNat 'A'))) := by
  refine ⟨?_, fun d => mem_diagOffsets, fun d hd => ?_, fun d k hk => ⟨?_, ?_⟩⟩
  · rw [windowVectors, List.length_map, length_diagOffsets]
  · rw [windowVectors]
    exact List.mem_map_of_mem _ hd
  · intro hoob
    rw [getD_windowVec p t m c d hk, windowBit, if_neg (by omega)]
  · intro hin
    rw [getD_windowVec p t m c d hk, windowBit, if_pos hin]
    constructor
    · intro h0
      by_cases hch : p.getD (c + k) 'A' = t.getD (((c + k : Nat) : Int) + d).toNat 'A'
      · exact hch
      · rw [if_neg hch] at h0
        exact absurd h0 one_ne_zero
    · intro hch
      rw [if_pos hch]

theorem c6_window_bits_witness :
    (windowVectors "AC".toList "AC".toList 2 1 4 0).length = 2 * 1 + 1 ∧
    ((windowVec "AC".toList "AC".toList 2 4 0 0).getD 0 1 = 0 ↔
      ("AC".toList).getD (0 + 0) 'A' =
        ("AC".toList).getD (((0 + 0 : Nat) : Int) + 0).toNat 'A') :=
  ⟨(c6_window_bits "AC".toList "AC".toList 2 1 4 0).1,
    ((c6_window_bits "AC".toList "AC".toList 2 1 4 0).2.2.2 0 0 (by omega)).2
      ⟨by omega, by omega, by omega⟩⟩

/-- **C7.**  On the contract's domain (`W ≥ 1`, matching the interface's
`W : PositiveInt`; `E` any `Nat`): `shouji_single` fails iff the lengths
differ, and then with the source's `ValueError` message and no output;
every equal-length input (any characters — there is no alphabet
validation) is processed to completion, returning a verdict with
`accept ↔ 1-bit count ≤ E`.  The `W ≥ 1` hypothesis is required: at
`W = 0` the source instead hits `vec[0]` on an empty window vector in
`_best_window_vector`, an error path outside this embedding. -/
theorem c7_error_handling (p t : List Char) (E W : Nat) (_hW : 1 ≤ W) :
    ((∃ msg, shouji_single p t E W = Except.error msg) ↔ p.length ≠ t.length) ∧
    (p.length ≠ t.length →
      shouji_single p t E W =
        Except.error
          "This simple version requires equal sequence lengths. Pad or trim for local/glocal alignment if needed.") ∧
    (p.length = t.length →
      ∃ a bv, shouji_single p t E W = Except.ok (a, bv) ∧
        (a = true ↔ bv.sum ≤ E)) := by
  by_cases h : p.length = t.length
  · refine ⟨⟨?_, fun hne => absurd h hne⟩, fun hne => absurd h hne, fun _ => ?_⟩
    · rintro ⟨msg, hmsg⟩
      rw [shouji_single, if_neg (by omega)] at hmsg
      exact Except.noConfusion hmsg
    · refine ⟨decide ((shoujiLoop p t p.length E W p.length 0
          (List.replicate p.length 1)).sum ≤ E),
        shoujiLoop p t p.length E W p.length 0 (List.replicate p.length 1), ?_, ?_⟩
      · rw [shouji_single, if_neg (by omega)]
      · simp
  · refine ⟨⟨fun _ => h, fun _ =>
      ⟨"This simple version requires equal sequence lengths. Pad or trim for local/glocal alignment if needed.",
        ?_⟩⟩, fun _ => ?_, fun heq => absurd heq h⟩
    · rw [shouji_single, if_pos h]
    · rw [shouji_single, if_pos h]

theorem c7_error_handling_witness :
    shouji_single "AB".toList "A".toList 0 4 =
        Except.error
          "This simple version requires equal sequence lengths. Pad or trim for local/glocal alignment if needed." ∧
    (∃ a bv, shouji_single "XY".toList "ZW".toList 1 4 = Except.ok (a, bv) ∧
      (a = true ↔ bv.sum ≤ 1)) :=
  ⟨(c7_error_handling "AB".toList "A".toList 0 4 (by decide)).2.1 (by decide),
    (c7_error_handling "XY".toList "ZW".toList 1 4 (by decide)).2.2 (by decide)⟩

/-- **C8.**  The spec's concrete scenarios, with the default `W = 4`:
exact match accepts with an all-zero vector; one substitution accepts at
`E = 1` and rejects at `E = 0`; two substitutions reject at `E = 1`; the
single-substitution pair `("ACGTAC", "ACGGAC")` accepts at `E = 1`. -/
theorem c8_concrete_scenarios :
    shouji_single "ACGT".toList "ACGT".toList 0 4 =
        Except.ok (true, [0, 0, 0, 0]) ∧
    shouji_single "ACGTACGT".toList "ACGTTCGT".toList 1 4 =
        Except.ok (true, [0, 0, 0, 0, 1, 0, 0, 0]) ∧
    shouji_single "ACGTACGT".toList "ACGTTCGT".toList 0 4 =
        Except.ok (false, [0, 0, 0, 0, 1, 0, 0, 0]) ∧
    shouji_single "ACGTACGT".toList "ACGTTCAT".toList 1 4 =
        Except.ok (false, [0, 0, 0, 0, 1, 0, 1, 0]) ∧
    shouji_single "ACGTAC".toList "ACGGAC".toList 1 4 =
        Except.ok (true, [0, 0, 0, 1, 0, 0]) :=
  ⟨rfl, rfl, rfl, rfl, rfl⟩

/-- **C9.**  Zero-witness soundness: every 0 in the returned decision
vector at a position `pos` is backed by a real in-band character match:
some diagonal `d ∈ [-E, E]` with `pos + d` in bounds and
`pattern[pos] = reference[pos + d]`. -/
theorem c9_zero_backed (p t : List Char) (E W : Nat) (a : Bool) (bv : List Nat)
    (pos : Nat) (hres : shouji_single p t E W = Except.ok (a, bv))
    (h0 : bv.getD pos 1 = 0) :
    pos < p.length ∧
      ∃ d : Int, -(E : Int) ≤ d ∧ d ≤ (E : Int) ∧ 0 ≤ (pos : Int) + d ∧
        (pos : Int) + d < (p.length : Int) ∧
        p.getD pos 'A' = t.getD ((pos : Int) + d).toNat 'A' := by
  rw [shouji_single] at hres
  split_ifs at hres with hlen
  · simp only [Except.ok.injEq, Prod.mk.injEq] at hres
    obtain ⟨ha, hbv⟩ := hres
    rw [← hbv] at h0
    rcases shoujiLoop_zero_source p t p.length E W p.length 0 _ pos h0 with
      h' | ⟨c', k, d, _, _, _, hposck, _, hd, hwb⟩
    · rw [List.getD_eq_getElem?_getD, List.getElem?_replicate] at h'
      split_ifs at h' <;> simp at h'
    · rw [mem_diagOffsets] at hd
      obtain ⟨hb1, hb2, hb3, hch⟩ := windowBit_eq_zero.mp hwb
      subst hposck
      exact ⟨by omega, d, hd.1, hd.2, hb2, hb3, hch⟩

theorem c9_zero_backed_witness :
    0 < ("AC".toList).length ∧
      ∃ d : Int, -((1 : Nat) : Int) ≤ d ∧ d ≤ ((1 : Nat) : Int) ∧
        0 ≤ ((0 : Nat) : Int) + d ∧
        ((0 : Nat) : Int) + d < (("AC".toList).length : Int) ∧
        ("AC".toList).getD 0 'A' = ("CA".toList).getD (((0 : Nat) : Int) + d).toNat 'A' :=
  c9_zero_backed "AC".toList "CA".toList 1 4 true [0, 0] 0 rfl rfl

/-- **C10.**  Empty input: for every `E` and `W`, the length check passes
and the filter accepts with an empty decision vector. -/
theorem c10_empty_input (E W : Nat) :
    shouji_single [] [] E W = Except.ok (true, []) := by
  rw [shouji_single, if_neg (fun h => h rfl)]
  simp [shoujiLoop]

end Shouji
